import Mathlib

/-
Verification of the transaction-execution core of matthieu/go-ethereum.

Shallow embedding of:
  - core/types/transaction.go : Transaction data, TxByNonce, TxByPrice,
    SortByPriceAndNonce (including the container/heap algorithms it relies on);
  - core/types/internaltx.go  : InternalTransaction, NewInternalTransaction;
  - core/internals_processor.go : InternalTxWatcher (SetParentHash, Register*);
  - core/vm_env.go            : GetHashFn, VMEnv.AddInternalTransaction;
  - core/state_processor.go   : StateProcessor.Process, ApplyTransaction.

Machine integers (uint64) are modelled as Nat: none of the verified
operations performs arithmetic that can overflow 2^64 (they only compare,
copy and count), so no explicit modulus is needed.  Unsigned big.Int
quantities (gas price, value) are likewise Nat.  Addresses, hashes and
single log entries are opaque identifiers modelled as Nat.  Go slices are
Lean lists.  Imperative loops are modelled by fuel-indexed structural
recursion; the fuel passed by each wrapper is proved (or chosen) large
enough that the cut-off branch is never reached on terminating inputs.
-/

namespace GoEthereum

/-- One transaction record (core/types/transaction.go, TxData).  The field
sender models the address recovered by tx.From(); the verified claims only
concern transactions whose senders are recoverable, so recovery is total
here.  The signature triple is irrelevant to the verified operations and is
not carried. -/
structure Tx where
  sender       : Nat
  accountNonce : Nat
  price        : Nat
  gasLimit     : Nat
  recipient    : Option Nat
  amount       : Nat
  payload      : List Nat
deriving DecidableEq, Repr, Inhabited

/-- Comparison used by TxByNonce.Less (ascending account nonce); the Go
sort produces a nondecreasing-by-nonce ordering of each sender partition. -/
def nonceLe (a b : Tx) : Prop := a.accountNonce ≤ b.accountNonce

instance : DecidableRel nonceLe := fun _ _ => Nat.decLe _ _

instance : IsTotal Tx nonceLe := ⟨fun _ _ => Nat.le_total _ _⟩

instance : IsTrans Tx nonceLe := ⟨fun _ _ _ h1 h2 => Nat.le_trans h1 h2⟩

/-! ## container/heap over TxByPrice

TxByPrice.Less(i, j) is s[i].Price.Cmp(s[j].Price) > 0, i.e. a max-heap on
gas price.  The heap operates on a slice by index; we embed the slice as a
list and the index accesses with getD (all accesses are in bounds along
every reachable path, which the permutation lemmas make explicit). -/

/-- TxByPrice.Less on positions of the backing list. -/
def hLess (l : List Tx) (i j : Nat) : Bool :=
  decide ((l.getD j default).price < (l.getD i default).price)

/-- TxByPrice.Swap on positions of the backing list. -/
def hSwap (l : List Tx) (i j : Nat) : List Tx :=
  (l.set i (l.getD j default)).set j (l.getD i default)

/-- container/heap down (sift-down): moves position i towards the leaves of
the heap prefix of length n.  The loop index strictly increases, so fuel
equal to the list length is always sufficient. -/
def down (fuel : Nat) (l : List Tx) (i n : Nat) : List Tx :=
  match fuel with
  | 0 => l
  | fuel + 1 =>
    let j1 := 2 * i + 1
    if j1 ≥ n then l
    else
      let j := if j1 + 1 < n ∧ hLess l (j1 + 1) j1 then j1 + 1 else j1
      if hLess l j i then down fuel (hSwap l i j) j n else l

/-- container/heap up (sift-up): moves position j towards the root.  The
loop index strictly decreases, so fuel equal to the list length suffices. -/
def up (fuel : Nat) (l : List Tx) (j : Nat) : List Tx :=
  match fuel with
  | 0 => l
  | fuel + 1 =>
    let i := (j - 1) / 2
    if i = j then l
    else if hLess l j i then up fuel (hSwap l i j) i else l

/-- heap.Init: sift down every internal node, last first. -/
def heapInit (l : List Tx) : List Tx :=
  (List.range (l.length / 2)).reverse.foldl
    (fun acc i => down acc.length acc i acc.length) l

/-- heap.Push: append then sift up from the last position. -/
def heapPush (l : List Tx) (x : Tx) : List Tx :=
  let l2 := l ++ [x]
  up l2.length l2 (l2.length - 1)

/-- heap.Pop: swap the root with the last element, sift the new root down
over the shortened prefix, then remove and return the last element.  The
Option models the len(byPrice) > 0 guard of the caller. -/
def heapPop (l : List Tx) : Option (Tx × List Tx) :=
  match l with
  | [] => none
  | _ :: _ =>
    let n := l.length - 1
    let l2 := down l.length (hSwap l 0 n) 0 n
    some (l2.getD n default, l2.dropLast)

/-! ## SortByPriceAndNonce (core/types/transaction.go)

The Go function partitions the input by sender into a map, sorts each
partition by nonce, seeds a price heap with the partition heads, and merges.
A Go map has no specified iteration order, so the seeding order is an
explicit parameter here; the partition map itself is embedded as an
association list keyed in first-appearance order (only lookup and in-place
value update are performed on it, for which any representation of the same
map is equivalent). -/

/-- Association-list lookup, modelling byNonce[acc] (first matching key). -/
def findVal (m : List (Nat × List Tx)) (k : Nat) : Option (List Tx) :=
  match m with
  | [] => none
  | kv :: rest => if kv.1 = k then some kv.2 else findVal rest k

/-- Association-list value replacement at the first matching key,
modelling byNonce[acc] = accTxs. -/
def updateAssoc (m : List (Nat × List Tx)) (k : Nat) (v : List Tx) :
    List (Nat × List Tx) :=
  match m with
  | [] => []
  | kv :: rest => if kv.1 = k then (k, v) :: rest else kv :: updateAssoc rest k v

/-- The value stored for key k, empty when absent. -/
def valsAt (m : List (Nat × List Tx)) (k : Nat) : List Tx :=
  (findVal m k).getD []

/-- Adds one transaction to its sender partition, modelling
byNonce[acc] = append(byNonce[acc], tx). -/
def insertGroup (m : List (Nat × List Tx)) (tx : Tx) : List (Nat × List Tx) :=
  match m with
  | [] => [(tx.sender, [tx])]
  | kv :: rest =>
    if kv.1 = tx.sender then (kv.1, kv.2 ++ [tx]) :: rest
    else kv :: insertGroup rest tx

/-- The byNonce partition map of SortByPriceAndNonce: transactions grouped
by recovered sender, each partition in input order. -/
def groupBySender (txs : List Tx) : List (Nat × List Tx) :=
  txs.foldl insertGroup []

/-- Each partition sorted by ascending nonce (sort.Sort with TxByNonce.Less). -/
def sortedGroups (txs : List Tx) : List (Nat × List Tx) :=
  (groupBySender txs).map (fun kv => (kv.1, List.insertionSort nonceLe kv.2))

/-- Partition keys, in first-appearance order. -/
def txSenders (txs : List Tx) : List Nat :=
  (groupBySender txs).map Prod.fst

/-- One step of the heap-seeding loop: move the head of the partition of
account a into the pending heap slice and behead the partition. -/
def seedStep (hm : List Tx × List (Nat × List Tx)) (a : Nat) :
    List Tx × List (Nat × List Tx) :=
  match findVal hm.2 a with
  | some (t :: ts) => (hm.1 ++ [t], updateAssoc hm.2 a ts)
  | _ => hm

/-- The seeding loop of SortByPriceAndNonce, iterating the partition map in
the given account order: returns the un-initialized heap slice and the
beheaded partitions. -/
def seedHeaps (sorted : List (Nat × List Tx)) (order : List Nat) :
    List Tx × List (Nat × List Tx) :=
  order.foldl seedStep ([], sorted)

/-- Total number of transactions still inside the partition map. -/
def sumVals (m : List (Nat × List Tx)) : Nat :=
  (m.map (fun kv => kv.2.length)).sum

/-- The merge loop of SortByPriceAndNonce: repeatedly pop the best-priced
head, emit it, and push the next transaction of the same sender if any.
Each iteration moves exactly one transaction to the output, so fuel equal
to (heap size + transactions remaining in the partition map) is exactly
enough; the fuel-exhausted branch is unreachable from the wrapper below. -/
def mergeLoopF (fuel : Nat) (byNonce : List (Nat × List Tx))
    (byPrice : List Tx) (out : List Tx) : List Tx :=
  match fuel with
  | 0 => out
  | fuel + 1 =>
    match heapPop byPrice with
    | none => out
    | some (best, rest) =>
      match findVal byNonce best.sender with
      | some (t :: ts) =>
        mergeLoopF fuel (updateAssoc byNonce best.sender ts)
          (heapPush rest t) (out ++ [best])
      | _ => mergeLoopF fuel byNonce rest (out ++ [best])

/-- The merge loop with its fuel instantiated to the exact iteration count. -/
def mergeLoop (byNonce : List (Nat × List Tx)) (byPrice : List Tx)
    (out : List Tx) : List Tx :=
  mergeLoopF (byPrice.length + sumVals byNonce) byNonce byPrice out

/-- SortByPriceAndNonce with the map-iteration (seeding) order made
explicit: partition by sender, sort each partition by nonce, seed the price
heap with the partition heads in the given order, heap-initialize, merge. -/
def sortByPriceAndNonceWith (txs : List Tx) (order : List Nat) : List Tx :=
  let sg := sortedGroups txs
  let seeded := seedHeaps sg order
  mergeLoop seeded.2 (heapInit seeded.1) []

/-- SortByPriceAndNonce under one fixed resolution of the map-iteration
order (first appearance of each sender in the input). -/
def sortByPriceAndNonce (txs : List Tx) : List Tx :=
  sortByPriceAndNonceWith txs (txSenders txs)

/-! ### Association-list facts -/

/-- All transactions still inside the partition map, in stored order. -/
def flattenVals (m : List (Nat × List Tx)) : List Tx :=
  match m with
  | [] => []
  | kv :: rest => kv.2 ++ flattenVals rest

/-- Transactions of sender s, in order (tx.From() restriction). -/
def filterS (s : Nat) (l : List Tx) : List Tx :=
  l.filter (fun t => t.sender = s)

/-! ### Merge-loop invariant

Along the merge, the partition map holds at most the not-yet-seeded suffix
of every sender partition, the heap holds at most one head per sender, and
every sender with a nonempty remaining partition has a head in the heap. -/

structure MergeInv (byNonce : List (Nat × List Tx)) (byPrice : List Tx) : Prop where
  nodupKeys : (byNonce.map Prod.fst).Nodup
  nodupSenders : (byPrice.map Tx.sender).Nodup
  covered : ∀ kv ∈ byNonce, kv.2 ≠ [] → kv.1 ∈ byPrice.map Tx.sender
  vals : ∀ kv ∈ byNonce, ∀ t ∈ kv.2, t.sender = kv.1

/-- Invariant of the heap-seeding loop: r is the unprocessed tail of the
seeding order, h the seeded heads, m the (partially beheaded) partitions. -/
structure SeedInv (txs : List Tx) (r : List Nat) (h : List Tx)
    (m : List (Nat × List Tx)) : Prop where
  keysEq : m.map Prod.fst = (groupBySender txs).map Prod.fst
  vals : ∀ kv ∈ m, ∀ t ∈ kv.2, t.sender = kv.1
  perS : ∀ s, filterS s h ++ valsAt m s = List.insertionSort nonceLe (filterS s txs)
  senNodup : (h.map Tx.sender).Nodup
  fresh : ∀ a ∈ r, filterS a h = []
  covered0 : ∀ s, s ∉ r → valsAt m s ≠ [] → s ∈ h.map Tx.sender
  mperm : (h ++ flattenVals m).Perm txs

/-! ## InternalTransaction (core/types/internaltx.go) and the recorder
(core/internals_processor.go)

An InternalTransaction composes a Transaction with provenance fields.  The
embedded Transaction fields are inlined here; the 20-byte address slice
appended to the suicide payload is abstracted to the single identifier of
the address (the payload plays no role in any verified property). -/

structure ITx where
  nonce      : Nat
  price      : Nat
  gasLimit   : Nat
  sender     : Nat
  recipient  : Nat
  amount     : Nat
  payload    : List Nat
  parentHash : Nat
  depth      : Nat
  index      : Nat
  note       : String
  rejected   : Bool
deriving DecidableEq, Repr, Inhabited

/-- NewInternalTransaction: builds the record with a zero parent hash and
rejected = false. -/
def newInternalTransaction (nonce price gasLimit sender recipient amount : Nat)
    (payload : List Nat) (depth index : Nat) (note : String) : ITx :=
  { nonce := nonce, price := price, gasLimit := gasLimit, sender := sender,
    recipient := recipient, amount := amount, payload := payload,
    parentHash := 0, depth := depth, index := index, note := note,
    rejected := false }

/-- vm.SELFDESTRUCT opcode byte, prefixed to the suicide payload. -/
def selfdestructOp : Nat := 255

/-- The InternalTxWatcher state is its accumulated internals slice. -/
def watcherIndex (w : List ITx) : Nat := w.length

def registerCall (w : List ITx) (nonce gasPrice gas srcAddr dstAddr value : Nat)
    (data : List Nat) (depth : Nat) : List ITx :=
  w ++ [newInternalTransaction nonce gasPrice gas srcAddr dstAddr value data
    depth (watcherIndex w) "call"]

def registerStaticCall (w : List ITx) (nonce gasPrice gas srcAddr dstAddr : Nat)
    (data : List Nat) (depth : Nat) : List ITx :=
  w ++ [newInternalTransaction nonce gasPrice gas srcAddr dstAddr 0 data
    depth (watcherIndex w) "staticcall"]

def registerCallCode (w : List ITx) (nonce gasPrice gas contractAddr value : Nat)
    (data : List Nat) (depth : Nat) : List ITx :=
  w ++ [newInternalTransaction nonce gasPrice gas contractAddr contractAddr value
    data depth (watcherIndex w) "call"]

def registerCreate (w : List ITx) (nonce gasPrice gas srcAddr newContractAddr value : Nat)
    (data : List Nat) (depth : Nat) : List ITx :=
  w ++ [newInternalTransaction nonce gasPrice gas srcAddr newContractAddr value
    data depth (watcherIndex w) "create"]

def registerDelegateCall (w : List ITx) (nonce gasPrice gas callerAddr value : Nat)
    (data : List Nat) (depth : Nat) : List ITx :=
  w ++ [newInternalTransaction nonce gasPrice gas callerAddr callerAddr value
    data depth (watcherIndex w) "call"]

def registerSuicide (w : List ITx) (nonce gasPrice gas contractAddr creatorAddr remainingValue : Nat)
    (depth : Nat) : List ITx :=
  w ++ [newInternalTransaction nonce gasPrice gas contractAddr creatorAddr
    remainingValue (selfdestructOp :: [creatorAddr]) depth (watcherIndex w) "suicide"]

/-- InternalTxWatcher.SetParentHash: stamp every recorded entry with the
given parent hash. -/
def setParentHash (w : List ITx) (ph : Nat) : List ITx :=
  w.map (fun e => { e with parentHash := ph })

/-- Iterated SetParentHash (n applications with the same hash). -/
def setParentHashIter (w : List ITx) (ph : Nat) : Nat → List ITx
  | 0 => w
  | n + 1 => setParentHash (setParentHashIter w ph n) ph

/-! ## VMEnv (core/vm_env.go) -/

/-- The per-transaction execution context, restricted to the state that
AddInternalTransaction reads and writes: the originating transaction hash,
the current call depth, and the accumulated internal transactions. -/
structure VMEnv where
  hash        : Nat
  depth       : Nat
  internalTxs : List ITx
deriving DecidableEq, Repr

/-- VMEnv.AddInternalTransaction: drops the entry when more than 500 are
already stored, otherwise overwrites its ParentHash, Index and Depth and
appends it. -/
def addInternalTransaction (env : VMEnv) (itx : ITx) : VMEnv :=
  if 500 < env.internalTxs.length then env
  else { env with internalTxs := env.internalTxs ++
    [{ itx with parentHash := env.hash,
                index := env.internalTxs.length,
                depth := env.depth }] }

/-- Operations the VM performs on the context between recordings. -/
inductive EnvOp where
  | add (itx : ITx)
  | setDepth (d : Nat)
deriving Repr

/-- A sequence of recordings and depth changes applied to a context. -/
def runOps (env : VMEnv) : List EnvOp → VMEnv
  | [] => env
  | op :: rest =>
    match op with
    | .add itx => runOps (addInternalTransaction env itx) rest
    | .setDepth d => runOps { env with depth := d } rest

/-- n identical registrations through AddInternalTransaction. -/
def addN (env : VMEnv) : Nat → VMEnv
  | 0 => env
  | n + 1 => addInternalTransaction (addN env n) default

/-! ## GetHashFn (core/vm_env.go) -/

/-- One block as seen by the ancestor walk: its own hash, its parent hash
and its height. -/
structure BlockRef where
  blockHash  : Nat
  parentHash : Nat
  number     : Nat
deriving DecidableEq, Repr

/-- The loop of GetHashFn: follow parent links from the block named by the
current hash; return the hash of the first block at height n, or the zero
hash (0) when the walk falls off the known chain.  The fuel bounds the
number of lookups; walkEnds below characterises when it is sufficient. -/
def getHashLoop (getBlock : Nat → Option BlockRef) : Nat → Nat → Nat → Nat
  | 0, _, _ => 0
  | fuel + 1, h, n =>
    match getBlock h with
    | none => 0
    | some b => if b.number = n then b.blockHash else getHashLoop getBlock fuel b.parentHash n

/-- GetHashFn(ref, chain) applied to n: ref is the parent hash of the
current header, so the walk visits only strict ancestors. -/
def getHashFn (getBlock : Nat → Option BlockRef) (ref fuel n : Nat) : Nat :=
  getHashLoop getBlock fuel ref n

/-- The blocks the walk visits, in visit order. -/
def chainSegment (getBlock : Nat → Option BlockRef) : Nat → Nat → List BlockRef
  | 0, _ => []
  | fuel + 1, h =>
    match getBlock h with
    | none => []
    | some b => b :: chainSegment getBlock fuel b.parentHash

/-- True when the parent walk reaches the end of the known chain within
fuel lookups (so the fuel cut-off branch of getHashLoop is unreachable). -/
def walkEnds (getBlock : Nat → Option BlockRef) : Nat → Nat → Bool
  | 0, _ => false
  | fuel + 1, h =>
    match getBlock h with
    | none => true
    | some b => walkEnds getBlock fuel b.parentHash

/-! ## StateProcessor.Process and ApplyTransaction (core/state_processor.go)

Process sequences ApplyTransaction over the block transactions, threading
the state database and the cumulative usedGas counter, and aborts the whole
block on the first fatal error.  ApplyTransaction itself calls out to the
signature recovery (tx.AsMessage) and the VM (ApplyMessage), neither of
which is part of this core; the loop is therefore stated over an arbitrary
applier oracle with exactly the signature the loop consumes: given the
current state and cumulative gas, a transaction yields either a fatal error
or (new state, new cumulative gas, receipt, internal transactions, vm error
string). -/

/-- Per-transaction receipt (assembled at the end of ApplyTransaction). -/
structure Receipt where
  postState        : Option Nat
  status           : Bool
  cumulativeGasUsed : Nat
  txHash           : Nat
  gasUsed          : Nat
  contractAddress  : Option Nat
  logs             : List Nat
  bloom            : Nat
  blockHash        : Nat
  blockNumber      : Nat
  transactionIndex : Nat
deriving DecidableEq, Repr, Inhabited

/-- The six return values of StateProcessor.Process, plus a flag recording
whether the consensus-engine Finalize hook ran (it runs only after every
transaction applied successfully). -/
structure ProcessOut where
  receipts  : List Receipt
  logs      : List Nat
  intTxs    : List (List ITx)
  vmerrs    : List String
  usedGas   : Nat
  procErr   : Option String
  finalized : Bool
deriving DecidableEq, Repr

/-- The transaction loop of Process.  On a fatal error it returns
immediately with nil receipts, nil logs, nil reports, zero gas, before the
Finalize hook; otherwise it accumulates receipts, receipt logs, internal
transactions and vm error strings in block order. -/
def processLoop {S : Type}
    (apply : S → Nat → Tx → Except String (S × Nat × Receipt × List ITx × String)) :
    S → Nat → List Tx → List Receipt → List Nat → List (List ITx) → List String →
    ProcessOut
  | _, usedGas, [], rs, ls, its, ves => ⟨rs, ls, its, ves, usedGas, none, true⟩
  | st, usedGas, tx :: rest, rs, ls, its, ves =>
    match apply st usedGas tx with
    | .error e => ⟨[], [], [], [], 0, some e, false⟩
    | .ok (st2, g2, r, itxs, ve) =>
      processLoop apply st2 g2 rest (rs ++ [r]) (ls ++ r.logs) (its ++ [itxs]) (ves ++ [ve])

/-- StateProcessor.Process over the given applier oracle. -/
def process {S : Type}
    (apply : S → Nat → Tx → Except String (S × Nat × Receipt × List ITx × String))
    (st : S) (txs : List Tx) : ProcessOut :=
  processLoop apply st 0 txs [] [] [] []

/-- The state and cumulative gas after successfully applying a prefix of
the block, or none when some transaction of the prefix fails. -/
def runUpTo {S : Type}
    (apply : S → Nat → Tx → Except String (S × Nat × Receipt × List ITx × String)) :
    S → Nat → List Tx → Option (S × Nat)
  | st, g, [] => some (st, g)
  | st, g, tx :: rest =>
    match apply st g tx with
    | .error _ => none
    | .ok (st2, g2, _, _, _) => runUpTo apply st2 g2 rest

/-! ### ApplyTransaction receipt assembly -/

/-- Chain configuration as consulted by ApplyTransaction: the declared
fork-activation predicates, keyed by block number. -/
structure ChainCfg where
  isByzantium : Nat → Bool
  isEIP158    : Nat → Bool

/-- The state-database operations the receipt assembly reads. -/
structure StateView where
  intermediateRoot : Bool → Nat
  logsFor          : Nat → List Nat
  blockHash        : Nat
  txIndex          : Nat

/-- The outcome reported by ApplyMessage for a successfully admitted
transaction. -/
structure ExecResult where
  usedGas : Nat
  failed  : Bool
  vmerr   : String

/-- Modelled from the spec: types.NewReceipt is not under src (only its
call site is).  Per the receipt root policy of the spec, a receipt either
embeds the supplied intermediate state root (pre-fork) or, when no root is
supplied (post-fork), carries only a success/fail status bit. -/
def newReceipt (root : Option Nat) (failed : Bool) (cumulativeGas : Nat) : Receipt :=
  { postState := root, status := !failed, cumulativeGasUsed := cumulativeGas,
    txHash := 0, gasUsed := 0, contractAddress := none, logs := [],
    bloom := 0, blockHash := 0, blockNumber := 0, transactionIndex := 0 }

/-- ApplyTransaction after the two fatal-error exits (AsMessage and
ApplyMessage are external; their error exits are modelled by the two Option
arguments).  Returns the receipt, the gas used by this transaction, the
parent-stamped internal transactions, the vm error string, the new
cumulative gas, and whether the post-fork Finalise pass (true) or the
pre-fork IntermediateRoot computation (false) was performed. -/
def applyTransactionModel (cfg : ChainCfg) (blockNumber : Nat) (st : StateView)
    (asMessageErr : Option String) (applyMessageErr : Option String)
    (res : ExecResult) (msgTo : Option Nat) (createdAddress : Nat)
    (txHash : Nat) (usedGas : Nat) (bloomFn : List Nat → Nat)
    (watcher : List ITx) :
    Except String (Receipt × Nat × List ITx × String × Nat × Bool) :=
  match asMessageErr with
  | some e => .error e
  | none =>
    match applyMessageErr with
    | some e => .error e
    | none =>
      let byz := cfg.isByzantium blockNumber
      let root : Option Nat :=
        if byz then none else some (st.intermediateRoot (cfg.isEIP158 blockNumber))
      let usedGas2 := usedGas + res.usedGas
      let receipt0 := newReceipt root res.failed usedGas2
      let receipt := { receipt0 with
        txHash := txHash,
        gasUsed := res.usedGas,
        contractAddress := if msgTo = none then some createdAddress else none,
        logs := st.logsFor txHash,
        bloom := bloomFn (st.logsFor txHash),
        blockHash := st.blockHash,
        blockNumber := blockNumber,
        transactionIndex := st.txIndex }
      .ok (receipt, res.usedGas, setParentHash watcher txHash, res.vmerr, usedGas2, byz)

/-- A three-block chain for exercising the ancestor walk: block 9 (height
2) with parent 8 (height 1) with parent 7 (unknown). -/
def testChain : Nat → Option BlockRef := fun h =>
  if h = 9 then some ⟨9, 8, 2⟩
  else if h = 8 then some ⟨8, 7, 1⟩
  else none

/-! ### Permutation and length facts for the heap operations -/

theorem hSwap_length (l : List Tx) (i j : Nat) : (hSwap l i j).length = l.length := by
  simp [hSwap]

theorem down_length (fuel : Nat) : ∀ (l : List Tx) (i n : Nat),
    (down fuel l i n).length = l.length := by
  induction fuel with
  | zero => intro l i n; rfl
  | succ fuel ih =>
    intro l i n
    simp only [down]
    split
    · rfl
    · split <;> split
      · rw [ih, hSwap_length]
      · rfl
      · rw [ih, hSwap_length]
      · rfl

theorem up_length (fuel : Nat) : ∀ (l : List Tx) (j : Nat),
    (up fuel l j).length = l.length := by
  induction fuel with
  | zero => intro l j; rfl
  | succ fuel ih =>
    intro l j
    simp only [up]
    split
    · rfl
    · split
      · rw [ih, hSwap_length]
      · rfl

theorem cons_set_perm : ∀ (t : List Tx) (m : Nat), m < t.length → ∀ a : Tx,
    ((t.getD m default) :: t.set m a).Perm (a :: t) := by
  intro t
  induction t with
  | nil => intro m hm; exact absurd hm (Nat.not_lt_zero m)
  | cons b t2 ih =>
    intro m hm a
    cases m with
    | zero =>
      simp only [List.getD_cons_zero, List.set_cons_zero]
      exact List.Perm.swap a b t2
    | succ m =>
      simp only [List.getD_cons_succ, List.set_cons_succ]
      have h1 : ((t2.getD m default) :: b :: t2.set m a).Perm
          (b :: (t2.getD m default) :: t2.set m a) := List.Perm.swap _ _ _
      have h2 : (b :: (t2.getD m default) :: t2.set m a).Perm (b :: a :: t2) :=
        List.Perm.cons b (ih m (Nat.lt_of_succ_lt_succ hm) a)
      exact (h1.trans h2).trans (List.Perm.swap a b t2)

theorem hSwap_perm_lt : ∀ (i j : Nat) (l : List Tx), i < j → j < l.length →
    (hSwap l i j).Perm l := by
  intro i
  induction i with
  | zero =>
    intro j l hij hj
    match l, j with
    | [], j => exact absurd hj (Nat.not_lt_zero j)
    | a :: t, 0 => exact absurd hij (Nat.lt_irrefl 0)
    | a :: t, m + 1 =>
      have hm : m < t.length := Nat.lt_of_succ_lt_succ hj
      simp only [hSwap, List.getD_cons_succ, List.getD_cons_zero,
        List.set_cons_zero, List.set_cons_succ]
      exact cons_set_perm t m hm a
  | succ i2 ih =>
    intro j l hij hj
    match l, j with
    | [], j => exact absurd hj (Nat.not_lt_zero j)
    | a :: t, 0 => exact absurd hij (Nat.not_lt_zero _)
    | a :: t, j2 + 1 =>
      have h1 : i2 < j2 := Nat.lt_of_succ_lt_succ hij
      have h2 : j2 < t.length := Nat.lt_of_succ_lt_succ hj
      simp only [hSwap, List.getD_cons_succ, List.set_cons_succ]
      exact List.Perm.cons a (ih j2 t h1 h2)

theorem set_getD_self : ∀ (l : List Tx) (i : Nat), i < l.length →
    l.set i (l.getD i default) = l := by
  intro l
  induction l with
  | nil => intro i hi; exact absurd hi (Nat.not_lt_zero i)
  | cons a t ih =>
    intro i hi
    cases i with
    | zero => simp
    | succ i =>
      simp only [List.getD_cons_succ, List.set_cons_succ]
      rw [ih i (Nat.lt_of_succ_lt_succ hi)]

theorem hSwap_perm (l : List Tx) (i j : Nat) (hi : i < l.length) (hj : j < l.length) :
    (hSwap l i j).Perm l := by
  rcases Nat.lt_trichotomy i j with h | h | h
  · exact hSwap_perm_lt i j l h hj
  · subst h
    unfold hSwap
    rw [List.set_set, set_getD_self l i hi]
  · have : hSwap l i j = hSwap l j i := by
      unfold hSwap
      exact List.set_comm _ _ l (Nat.ne_of_gt h)
    rw [this]
    exact hSwap_perm_lt j i l h hi

theorem down_perm (fuel : Nat) : ∀ (l : List Tx) (i n : Nat), n ≤ l.length →
    (down fuel l i n).Perm l := by
  induction fuel with
  | zero => intro l i n _; exact List.Perm.refl l
  | succ fuel ih =>
    intro l i n hn
    simp only [down]
    split
    · exact List.Perm.refl l
    · rename_i hj1
      split
      · rename_i hc
        obtain ⟨hc1, _⟩ := hc
        split
        · have hsw := hSwap_perm l i (2 * i + 1 + 1) (by omega) (by omega)
          exact (ih _ _ n (by rw [hSwap_length]; exact hn)).trans hsw
        · exact List.Perm.refl l
      · split
        · have hsw := hSwap_perm l i (2 * i + 1) (by omega) (by omega)
          exact (ih _ _ n (by rw [hSwap_length]; exact hn)).trans hsw
        · exact List.Perm.refl l

theorem up_perm (fuel : Nat) : ∀ (l : List Tx) (j : Nat), j < l.length →
    (up fuel l j).Perm l := by
  induction fuel with
  | zero => intro l j _; exact List.Perm.refl l
  | succ fuel ih =>
    intro l j hj
    simp only [up]
    split
    · exact List.Perm.refl l
    · rename_i hne
      split
      · have hij : (j - 1) / 2 < j := by omega
        have hperm := hSwap_perm l ((j - 1) / 2) j (by omega) hj
        have hrec := ih (hSwap l ((j - 1) / 2) j) ((j - 1) / 2)
          (by rw [hSwap_length]; omega)
        exact hrec.trans hperm
      · exact List.Perm.refl l

theorem heapInit_perm (l : List Tx) : (heapInit l).Perm l := by
  unfold heapInit
  generalize (List.range (l.length / 2)).reverse = idxs
  induction idxs generalizing l with
  | nil => exact List.Perm.refl l
  | cons i rest ih =>
    simp only [List.foldl_cons]
    exact (ih (down l.length l i l.length)).trans
      (down_perm l.length l i l.length (Nat.le_refl _))

theorem heapPush_perm (l : List Tx) (x : Tx) : (heapPush l x).Perm (x :: l) := by
  unfold heapPush
  have h1 : (l ++ [x]).length - 1 < (l ++ [x]).length := by
    simp
  exact (up_perm (l ++ [x]).length (l ++ [x]) _ h1).trans
    (List.perm_append_singleton x l)

theorem heapPop_spec (l : List Tx) (best : Tx) (rest : List Tx)
    (h : heapPop l = some (best, rest)) :
    (best :: rest).Perm l ∧ rest.length + 1 = l.length := by
  match l with
  | [] => exact absurd h (by simp [heapPop])
  | a :: t =>
    simp only [heapPop, Option.some.injEq, Prod.mk.injEq] at h
    obtain ⟨hbest, hrest⟩ := h
    set l0 : List Tx := a :: t with hl0
    set l2 := down l0.length (hSwap l0 0 (l0.length - 1)) 0 (l0.length - 1) with hl2
    have hlen2 : l2.length = l0.length := by
      rw [hl2, down_length, hSwap_length]
    have hperm2 : l2.Perm l0 := by
      have hs := hSwap_perm l0 0 (l0.length - 1)
        (by simp [hl0]) (by simp [hl0])
      have hd := down_perm l0.length (hSwap l0 0 (l0.length - 1)) 0 (l0.length - 1)
        (by rw [hSwap_length]; omega)
      exact hd.trans hs
    have hne : l2 ≠ [] := by
      intro hcon
      rw [hcon] at hlen2
      simp [hl0] at hlen2
    have hgl : l2.getLast? = some best := by
      rw [List.getLast?_eq_getElem?]
      rw [hlen2]
      have h9 : l0.length = t.length + 1 := by simp [hl0]
      have hidx : l0.length - 1 < l2.length := by omega
      rw [List.getElem?_eq_getElem hidx]
      rw [← hbest]
      rw [List.getD_eq_getElem?_getD, List.getElem?_eq_getElem hidx]
      rfl
    have hsplit : l2.dropLast ++ [best] = l2 :=
      List.dropLast_append_getLast? best hgl
    constructor
    · have h1 : (best :: rest).Perm (rest ++ [best]) :=
        (List.perm_append_singleton best rest).symm
      rw [hrest] at hsplit
      rw [hsplit] at h1
      exact h1.trans hperm2
    · rw [← hrest]
      rw [List.length_dropLast, hlen2]
      simp [hl0]

theorem filterS_append (s : Nat) (l1 l2 : List Tx) :
    filterS s (l1 ++ l2) = filterS s l1 ++ filterS s l2 := by
  simp [filterS, List.filter_append]

theorem findVal_mem : ∀ (m : List (Nat × List Tx)) (k : Nat) (v : List Tx),
    findVal m k = some v → (k, v) ∈ m := by
  intro m
  induction m with
  | nil => intro k v h; exact absurd h (by simp [findVal])
  | cons kv rest ih =>
    intro k v h
    simp only [findVal] at h
    split at h
    · rename_i heq
      cases h
      subst heq
      exact List.mem_cons.mpr (Or.inl Prod.mk.eta)
    · exact List.mem_cons_of_mem kv (ih k v h)

theorem findVal_eq_none : ∀ (m : List (Nat × List Tx)) (k : Nat),
    k ∉ m.map Prod.fst → findVal m k = none := by
  intro m
  induction m with
  | nil => intro k _; rfl
  | cons kv rest ih =>
    intro k hk
    simp only [List.map_cons, List.mem_cons] at hk
    push_neg at hk
    simp only [findVal]
    rw [if_neg (fun hc => hk.1 hc.symm)]
    exact ih k hk.2

theorem findVal_of_mem_nodup : ∀ (m : List (Nat × List Tx)) (kv : Nat × List Tx),
    (m.map Prod.fst).Nodup → kv ∈ m → findVal m kv.1 = some kv.2 := by
  intro m
  induction m with
  | nil => intro kv _ h; exact absurd h (List.not_mem_nil kv)
  | cons hd rest ih =>
    intro kv hnd hmem
    simp only [List.map_cons, List.nodup_cons] at hnd
    rcases List.mem_cons.mp hmem with h | h
    · subst h
      simp [findVal]
    · have hne : hd.1 ≠ kv.1 := by
        intro hc
        exact hnd.1 (hc ▸ (List.mem_map_of_mem Prod.fst h))
      simp only [findVal, if_neg hne]
      exact ih kv hnd.2 h

theorem updateAssoc_keys : ∀ (m : List (Nat × List Tx)) (k : Nat) (v : List Tx),
    (updateAssoc m k v).map Prod.fst = m.map Prod.fst := by
  intro m
  induction m with
  | nil => intro k v; rfl
  | cons kv rest ih =>
    intro k v
    simp only [updateAssoc]
    split
    · rename_i heq
      simp [← heq]
    · simp [ih]

theorem findVal_update_self : ∀ (m : List (Nat × List Tx)) (k : Nat) (v w : List Tx),
    findVal m k = some v → findVal (updateAssoc m k w) k = some w := by
  intro m
  induction m with
  | nil => intro k v w h; exact absurd h (by simp [findVal])
  | cons kv rest ih =>
    intro k v w h
    simp only [findVal] at h
    simp only [updateAssoc]
    split
    · simp [findVal]
    · rename_i hne
      rw [if_neg hne] at h
      simp only [findVal, if_neg hne]
      exact ih k v w h

theorem findVal_update_ne : ∀ (m : List (Nat × List Tx)) (k s : Nat) (w : List Tx),
    s ≠ k → findVal (updateAssoc m k w) s = findVal m s := by
  intro m
  induction m with
  | nil => intro k s w _; rfl
  | cons kv rest ih =>
    intro k s w hs
    simp only [updateAssoc]
    split
    · rename_i heq
      simp only [findVal]
      rw [if_neg (fun hc => hs hc.symm), if_neg (by rw [heq]; exact fun hc => hs hc.symm)]
    · simp only [findVal]
      split
      · rfl
      · exact ih k s w hs

theorem mem_updateAssoc : ∀ (m : List (Nat × List Tx)) (k : Nat) (w : List Tx)
    (kv : Nat × List Tx), kv ∈ updateAssoc m k w → kv = (k, w) ∨ kv ∈ m := by
  intro m
  induction m with
  | nil => intro k w kv h; exact absurd h (List.not_mem_nil kv)
  | cons hd rest ih =>
    intro k w kv h
    simp only [updateAssoc] at h
    split at h
    · rcases List.mem_cons.mp h with h | h
      · exact Or.inl h
      · exact Or.inr (List.mem_cons_of_mem hd h)
    · rcases List.mem_cons.mp h with h | h
      · exact Or.inr (h ▸ List.mem_cons_self hd rest)
      · rcases ih k w kv h with h2 | h2
        · exact Or.inl h2
        · exact Or.inr (List.mem_cons_of_mem hd h2)

theorem flattenVals_update_perm : ∀ (m : List (Nat × List Tx)) (k : Nat)
    (t : Tx) (ts : List Tx), findVal m k = some (t :: ts) →
    (flattenVals (updateAssoc m k ts) ++ [t]).Perm (flattenVals m) := by
  intro m
  induction m with
  | nil => intro k t ts h; exact absurd h (by simp [findVal])
  | cons kv rest ih =>
    intro k t ts h
    simp only [findVal] at h
    simp only [updateAssoc]
    split
    · rename_i heq
      rw [if_pos heq] at h
      injection h with hv
      simp only [flattenVals, hv]
      exact List.perm_append_singleton t (ts ++ flattenVals rest)
    · rename_i hne
      rw [if_neg hne] at h
      simp only [flattenVals]
      have hr := ih k t ts h
      have h3 : (kv.2 ++ flattenVals (updateAssoc rest k ts)) ++ [t]
          = kv.2 ++ (flattenVals (updateAssoc rest k ts) ++ [t]) := by
        rw [List.append_assoc]
      rw [h3]
      exact List.Perm.append_left kv.2 hr

theorem flattenVals_nil_of_all_nil : ∀ (m : List (Nat × List Tx)),
    (∀ kv ∈ m, kv.2 = []) → flattenVals m = [] := by
  intro m
  induction m with
  | nil => intro _; rfl
  | cons kv rest ih =>
    intro h
    simp only [flattenVals]
    rw [h kv (List.mem_cons_self kv rest), ih (fun x hx => h x (List.mem_cons_of_mem kv hx))]
    rfl

/-! ### Facts about the byNonce partition map -/

theorem findVal_insertGroup_self : ∀ (m : List (Nat × List Tx)) (tx : Tx),
    findVal (insertGroup m tx) tx.sender = some (valsAt m tx.sender ++ [tx]) := by
  intro m
  induction m with
  | nil => intro tx; simp [insertGroup, findVal, valsAt]
  | cons kv rest ih =>
    intro tx
    simp only [insertGroup]
    split
    · rename_i heq
      simp [findVal, heq, valsAt]
    · rename_i hne
      simp only [findVal, if_neg hne, valsAt, if_neg hne]
      exact ih tx

theorem findVal_insertGroup_ne : ∀ (m : List (Nat × List Tx)) (tx : Tx) (s : Nat),
    s ≠ tx.sender → findVal (insertGroup m tx) s = findVal m s := by
  intro m
  induction m with
  | nil =>
    intro tx s hs
    simp only [insertGroup, findVal]
    rw [if_neg (fun hc => hs hc.symm)]
  | cons kv rest ih =>
    intro tx s hs
    simp only [insertGroup]
    split
    · rename_i heq
      simp only [findVal, heq]
      rw [if_neg (fun hc => hs hc.symm), if_neg (fun hc => hs hc.symm)]
    · simp only [findVal]
      split
      · rfl
      · exact ih tx s hs

theorem insertGroup_keys : ∀ (m : List (Nat × List Tx)) (tx : Tx),
    (insertGroup m tx).map Prod.fst =
      if tx.sender ∈ m.map Prod.fst then m.map Prod.fst
      else m.map Prod.fst ++ [tx.sender] := by
  intro m
  induction m with
  | nil => intro tx; simp [insertGroup]
  | cons kv rest ih =>
    intro tx
    simp only [insertGroup]
    split
    · rename_i heq
      simp [heq]
    · rename_i hne
      simp only [List.map_cons, ih, List.mem_cons]
      have hne2 : ¬ tx.sender = kv.1 := fun hc => hne hc.symm
      by_cases hmem : tx.sender ∈ rest.map Prod.fst
      · rw [if_pos hmem, if_pos (Or.inr hmem)]
      · rw [if_neg hmem, if_neg (by rintro (hc | hc); exact hne2 hc; exact hmem hc)]
        simp

theorem flattenVals_insertGroup : ∀ (m : List (Nat × List Tx)) (tx : Tx),
    (flattenVals (insertGroup m tx)).Perm (flattenVals m ++ [tx]) := by
  intro m
  induction m with
  | nil => intro tx; simp [insertGroup, flattenVals]
  | cons kv rest ih =>
    intro tx
    simp only [insertGroup]
    split
    · simp only [flattenVals]
      rw [List.append_assoc, List.append_assoc]
      exact List.Perm.append_left kv.2 List.perm_append_comm
    · simp only [flattenVals]
      have h1 := List.Perm.append_left kv.2 (ih tx)
      rw [← List.append_assoc] at h1
      exact h1

theorem valsAt_groupBy : ∀ (txs : List Tx) (m : List (Nat × List Tx)) (s : Nat),
    valsAt (txs.foldl insertGroup m) s = valsAt m s ++ filterS s txs := by
  intro txs
  induction txs with
  | nil => intro m s; simp [filterS]
  | cons tx rest ih =>
    intro m s
    simp only [List.foldl_cons]
    rw [ih]
    by_cases hs : tx.sender = s
    · have h1 : valsAt (insertGroup m tx) s = valsAt m s ++ [tx] := by
        unfold valsAt
        rw [← hs, findVal_insertGroup_self]
        rfl
      rw [h1]
      simp only [filterS, List.filter_cons]
      rw [if_pos (by simp [hs])]
      simp [filterS]
    · have h1 : valsAt (insertGroup m tx) s = valsAt m s := by
        unfold valsAt
        rw [findVal_insertGroup_ne m tx s (fun hc => hs hc.symm)]
      rw [h1]
      simp only [filterS, List.filter_cons]
      rw [if_neg (by simp [hs])]

theorem groupBy_keys_nodup : ∀ (txs : List Tx) (m : List (Nat × List Tx)),
    (m.map Prod.fst).Nodup → ((txs.foldl insertGroup m).map Prod.fst).Nodup := by
  intro txs
  induction txs with
  | nil => intro m h; exact h
  | cons tx rest ih =>
    intro m h
    simp only [List.foldl_cons]
    refine ih (insertGroup m tx) ?_
    rw [insertGroup_keys]
    split
    · exact h
    · rename_i hmem
      have hd : (m.map Prod.fst).Disjoint [tx.sender] := by
        intro a ha hb
        simp only [List.mem_singleton] at hb
        exact hmem (hb ▸ ha)
      exact h.append (by simp) hd

theorem flattenVals_groupBy : ∀ (txs : List Tx) (m : List (Nat × List Tx)),
    (flattenVals (txs.foldl insertGroup m)).Perm (flattenVals m ++ txs) := by
  intro txs
  induction txs with
  | nil => intro m; simp
  | cons tx rest ih =>
    intro m
    simp only [List.foldl_cons]
    have h1 := ih (insertGroup m tx)
    have h2 := List.Perm.append_right rest (flattenVals_insertGroup m tx)
    have h3 : (flattenVals m ++ [tx]) ++ rest = flattenVals m ++ (tx :: rest) := by
      rw [List.append_assoc]
      rfl
    rw [h3] at h2
    exact h1.trans h2

theorem sortedGroups_keys (txs : List Tx) :
    (sortedGroups txs).map Prod.fst = (groupBySender txs).map Prod.fst := by
  simp [sortedGroups]

theorem findVal_map_sort : ∀ (m : List (Nat × List Tx)) (s : Nat),
    findVal (m.map (fun kv => (kv.1, List.insertionSort nonceLe kv.2))) s =
      (findVal m s).map (List.insertionSort nonceLe) := by
  intro m
  induction m with
  | nil => intro s; rfl
  | cons kv rest ih =>
    intro s
    simp only [List.map_cons, findVal]
    split
    · rfl
    · exact ih s

theorem flattenVals_map_sort : ∀ (m : List (Nat × List Tx)),
    (flattenVals (m.map (fun kv => (kv.1, List.insertionSort nonceLe kv.2)))).Perm
      (flattenVals m) := by
  intro m
  induction m with
  | nil => exact List.Perm.refl []
  | cons kv rest ih =>
    simp only [List.map_cons, flattenVals]
    exact List.Perm.append (List.perm_insertionSort nonceLe kv.2) ih

/-- The partition of sender s inside groupBySender is exactly the input
restricted to sender s, in input order. -/
theorem valsAt_groupBySender (txs : List Tx) (s : Nat) :
    valsAt (groupBySender txs) s = filterS s txs := by
  unfold groupBySender
  rw [valsAt_groupBy]
  rfl

theorem groupBySender_keys_nodup (txs : List Tx) :
    ((groupBySender txs).map Prod.fst).Nodup := by
  unfold groupBySender
  exact groupBy_keys_nodup txs [] (by simp)

theorem flattenVals_groupBySender (txs : List Tx) :
    (flattenVals (groupBySender txs)).Perm txs := by
  unfold groupBySender
  have h := flattenVals_groupBy txs []
  simpa using h

theorem valsAt_sortedGroups (txs : List Tx) (s : Nat) :
    valsAt (sortedGroups txs) s = List.insertionSort nonceLe (filterS s txs) := by
  unfold sortedGroups valsAt
  rw [findVal_map_sort]
  rw [← valsAt_groupBySender txs s]
  unfold valsAt
  cases h : findVal (groupBySender txs) s
  · simp
  · simp

theorem sumVals_update : ∀ (m : List (Nat × List Tx)) (k : Nat) (t : Tx)
    (ts : List Tx), findVal m k = some (t :: ts) →
    sumVals (updateAssoc m k ts) + 1 = sumVals m := by
  intro m
  induction m with
  | nil => intro k t ts h; exact absurd h (by simp [findVal])
  | cons kv rest ih =>
    intro k t ts h
    simp only [findVal] at h
    simp only [updateAssoc]
    split
    · rename_i heq
      rw [if_pos heq] at h
      injection h with hv
      simp only [sumVals, List.map_cons, List.sum_cons, hv]
      simp [Nat.add_comm, Nat.add_assoc, Nat.add_left_comm]
    · rename_i hne
      rw [if_neg hne] at h
      simp only [sumVals, List.map_cons, List.sum_cons]
      have := ih k t ts h
      simp only [sumVals] at this
      omega

theorem sumVals_zero_vals : ∀ (m : List (Nat × List Tx)), sumVals m = 0 →
    ∀ kv ∈ m, kv.2 = [] := by
  intro m
  induction m with
  | nil => intro _ kv h; exact absurd h (List.not_mem_nil kv)
  | cons hd rest ih =>
    intro h kv hkv
    simp only [sumVals, List.map_cons, List.sum_cons] at h
    rcases List.mem_cons.mp hkv with h2 | h2
    · subst h2
      exact List.eq_nil_of_length_eq_zero (by omega)
    · exact ih (by simp only [sumVals]; omega) kv h2

theorem perm_eq_of_length_le_one {l1 l2 : List Tx} (h : l1.Perm l2)
    (hlen : l2.length ≤ 1) : l1 = l2 := by
  match l2, hlen with
  | [], _ => exact List.Perm.eq_nil h
  | [a], _ => exact List.perm_singleton.mp h

theorem filterS_nil_of_not_mem (s : Nat) (l : List Tx)
    (h : s ∉ l.map Tx.sender) : filterS s l = [] := by
  unfold filterS
  rw [List.filter_eq_nil_iff]
  intro t ht
  simp only [decide_eq_true_eq]
  intro hc
  exact h (hc ▸ List.mem_map_of_mem Tx.sender ht)

theorem filterS_length_count (s : Nat) : ∀ (l : List Tx),
    (filterS s l).length = (l.map Tx.sender).count s := by
  intro l
  induction l with
  | nil => rfl
  | cons x rest ih =>
    simp only [filterS, List.filter_cons, List.map_cons]
    by_cases hx : x.sender = s
    · rw [if_pos (by simp [hx])]
      simp only [filterS] at ih
      simp only [List.length_cons, ih, hx, List.count_cons_self]
    · rw [if_neg (by simp [hx])]
      rw [List.count_cons_of_ne (fun hc => hx hc.symm)]
      exact ih

theorem filterS_length_le_one (s : Nat) (l : List Tx)
    (h : (l.map Tx.sender).Nodup) : (filterS s l).length ≤ 1 := by
  rw [filterS_length_count]
  exact List.nodup_iff_count_le_one.mp h s

theorem heapPush_length (l : List Tx) (x : Tx) :
    (heapPush l x).length = l.length + 1 := by
  unfold heapPush
  rw [up_length]
  simp

theorem heapPop_none (l : List Tx) (h : heapPop l = none) : l = [] := by
  cases l with
  | nil => rfl
  | cons a t => exact absurd h (by simp [heapPop])

theorem pop_senders {byPrice : List Tx} {best : Tx} {rest : List Tx}
    (h : heapPop byPrice = some (best, rest)) :
    (best.sender :: rest.map Tx.sender).Perm (byPrice.map Tx.sender) :=
  (heapPop_spec _ _ _ h).1.map Tx.sender

theorem step_inv_tail {byNonce : List (Nat × List Tx)} {byPrice : List Tx}
    {best t : Tx} {rest ts : List Tx}
    (inv : MergeInv byNonce byPrice)
    (hpop : heapPop byPrice = some (best, rest))
    (hfind : findVal byNonce best.sender = some (t :: ts)) :
    MergeInv (updateAssoc byNonce best.sender ts) (heapPush rest t) := by
  have hmem := findVal_mem byNonce best.sender (t :: ts) hfind
  have ht_sender : t.sender = best.sender :=
    inv.vals _ hmem t (List.mem_cons_self t ts)
  have hsp := pop_senders hpop
  have hnodup_cons : (best.sender :: rest.map Tx.sender).Nodup :=
    hsp.nodup_iff.mpr inv.nodupSenders
  have hpush_senders : ((heapPush rest t).map Tx.sender).Perm
      (t.sender :: rest.map Tx.sender) := (heapPush_perm rest t).map Tx.sender
  have hb_mem_push : best.sender ∈ (heapPush rest t).map Tx.sender := by
    rw [hpush_senders.mem_iff, ht_sender]
    exact List.mem_cons_self _ _
  refine ⟨?_, ?_, ?_, ?_⟩
  · rw [updateAssoc_keys]
    exact inv.nodupKeys
  · rw [hpush_senders.nodup_iff, ht_sender]
    exact hnodup_cons
  · intro kv hkv hne
    rcases mem_updateAssoc byNonce best.sender ts kv hkv with h | h
    · rw [h]
      exact hb_mem_push
    · have hcov := inv.covered kv h hne
      rw [← hsp.mem_iff] at hcov
      rcases List.mem_cons.mp hcov with h2 | h2
      · rw [h2]
        exact hb_mem_push
      · rw [hpush_senders.mem_iff]
        exact List.mem_cons_of_mem _ h2
  · intro kv hkv x hx
    rcases mem_updateAssoc byNonce best.sender ts kv hkv with h | h
    · subst h
      exact inv.vals _ hmem x (List.mem_cons_of_mem t hx)
    · exact inv.vals kv h x hx

theorem step_inv_notail {byNonce : List (Nat × List Tx)} {byPrice : List Tx}
    {best : Tx} {rest : List Tx}
    (inv : MergeInv byNonce byPrice)
    (hpop : heapPop byPrice = some (best, rest))
    (hno : valsAt byNonce best.sender = []) :
    MergeInv byNonce rest := by
  have hsp := pop_senders hpop
  have hnodup_cons : (best.sender :: rest.map Tx.sender).Nodup :=
    hsp.nodup_iff.mpr inv.nodupSenders
  refine ⟨inv.nodupKeys, (List.nodup_cons.mp hnodup_cons).2, ?_, inv.vals⟩
  intro kv hkv hne
  have hcov := inv.covered kv hkv hne
  rw [← hsp.mem_iff] at hcov
  rcases List.mem_cons.mp hcov with h2 | h2
  · exfalso
    have := findVal_of_mem_nodup byNonce kv inv.nodupKeys hkv
    rw [← h2] at hno
    unfold valsAt at hno
    rw [this] at hno
    exact hne hno
  · exact h2

theorem coe_append (l1 l2 : List Tx) :
    ((l1 ++ l2 : List Tx) : Multiset Tx) = (l1 : Multiset Tx) + (l2 : Multiset Tx) := rfl

/-- The merge loop emits exactly the transactions it holds: output is the
previous output, the heap content and the partition remainder together. -/
theorem mergeLoopF_perm : ∀ (fuel : Nat) (byNonce : List (Nat × List Tx))
    (byPrice out : List Tx),
    byPrice.length + sumVals byNonce ≤ fuel → MergeInv byNonce byPrice →
    (mergeLoopF fuel byNonce byPrice out).Perm
      (out ++ (byPrice ++ flattenVals byNonce)) := by
  intro fuel
  induction fuel with
  | zero =>
    intro byNonce byPrice out hm _
    have h1 : byPrice = [] := List.length_eq_zero.mp (by omega)
    have h2 : flattenVals byNonce = [] :=
      flattenVals_nil_of_all_nil byNonce (sumVals_zero_vals byNonce (by omega))
    simp [mergeLoopF, h1, h2]
  | succ fuel ih =>
    intro byNonce byPrice out hm inv
    simp only [mergeLoopF]
    split
    · rename_i heq
      have h1 := heapPop_none byPrice heq
      subst h1
      have h2 : flattenVals byNonce = [] := by
        refine flattenVals_nil_of_all_nil byNonce ?_
        intro kv hkv
        by_contra hne
        simpa using inv.covered kv hkv hne
      simp [h2]
    · rename_i best rest heq
      obtain ⟨hperm, hlen⟩ := heapPop_spec byPrice best rest heq
      split
      · rename_i t ts hfind
        have hsv := sumVals_update byNonce best.sender t ts hfind
        have hm2 : (heapPush rest t).length +
            sumVals (updateAssoc byNonce best.sender ts) ≤ fuel := by
          rw [heapPush_length]
          omega
        have inv2 := step_inv_tail inv heq hfind
        have hrec := ih _ _ (out ++ [best]) hm2 inv2
        refine hrec.trans ?_
        rw [← Multiset.coe_eq_coe]
        simp only [coe_append]
        have e1 : (byPrice : Multiset Tx) = {best} + (rest : Multiset Tx) := by
          rw [Multiset.singleton_add, Multiset.cons_coe, Multiset.coe_eq_coe]
          exact hperm.symm
        have e2 : ((heapPush rest t : List Tx) : Multiset Tx)
            = {t} + (rest : Multiset Tx) := by
          rw [Multiset.singleton_add, Multiset.cons_coe, Multiset.coe_eq_coe]
          exact heapPush_perm rest t
        have e3 : ((flattenVals (updateAssoc byNonce best.sender ts) : List Tx) : Multiset Tx)
            + {t} = ((flattenVals byNonce : List Tx) : Multiset Tx) := by
          have h4 := flattenVals_update_perm byNonce best.sender t ts hfind
          rw [← Multiset.coe_eq_coe] at h4
          rw [coe_append] at h4
          simpa using h4
        rw [e1, e2, ← e3]
        have e4 : ((([best] : List Tx)) : Multiset Tx) = {best} := by
          simp
        rw [e4]
        abel
      · rename_i hpat
        have hno : valsAt byNonce best.sender = [] := by
          unfold valsAt
          cases hf : findVal byNonce best.sender with
          | none => rfl
          | some v =>
            cases v with
            | nil => rfl
            | cons t ts => exact absurd hf (by intro hc; exact hpat t ts hc)
        have hm2 : rest.length + sumVals byNonce ≤ fuel := by omega
        have inv2 := step_inv_notail inv heq hno
        have hrec := ih byNonce rest (out ++ [best]) hm2 inv2
        refine hrec.trans ?_
        rw [← Multiset.coe_eq_coe]
        simp only [coe_append]
        have e1 : (byPrice : Multiset Tx) = {best} + (rest : Multiset Tx) := by
          rw [Multiset.singleton_add, Multiset.cons_coe, Multiset.coe_eq_coe]
          exact hperm.symm
        rw [e1]
        have e4 : ((([best] : List Tx)) : Multiset Tx) = {best} := by
          simp
        rw [e4]
        abel

theorem filterS_cons_pos {x : Tx} {s : Nat} (l : List Tx) (h : x.sender = s) :
    filterS s (x :: l) = x :: filterS s l := by
  simp [filterS, List.filter_cons, h]

theorem filterS_cons_neg {x : Tx} {s : Nat} (l : List Tx) (h : x.sender ≠ s) :
    filterS s (x :: l) = filterS s l := by
  simp [filterS, List.filter_cons, h]

theorem filterS_perm {l1 l2 : List Tx} (s : Nat) (h : l1.Perm l2) :
    (filterS s l1).Perm (filterS s l2) := by
  unfold filterS
  exact h.filter _

/-- The merge loop restricted to any single sender: it appends the heap
head of that sender (if any) and then the remaining partition, in order. -/
theorem mergeLoopF_filterS : ∀ (fuel : Nat) (byNonce : List (Nat × List Tx))
    (byPrice out : List Tx) (s : Nat),
    byPrice.length + sumVals byNonce ≤ fuel → MergeInv byNonce byPrice →
    filterS s (mergeLoopF fuel byNonce byPrice out) =
      filterS s out ++ filterS s byPrice ++ valsAt byNonce s := by
  intro fuel
  induction fuel with
  | zero =>
    intro byNonce byPrice out s hm _
    have h1 : byPrice = [] := List.length_eq_zero.mp (by omega)
    have h2 : valsAt byNonce s = [] := by
      unfold valsAt
      cases hf : findVal byNonce s with
      | none => rfl
      | some v =>
        have := sumVals_zero_vals byNonce (by omega) (s, v) (findVal_mem _ _ _ hf)
        simpa using this
    simp [mergeLoopF, h1, h2, filterS]
  | succ fuel ih =>
    intro byNonce byPrice out s hm inv
    simp only [mergeLoopF]
    split
    · rename_i heq
      have h1 := heapPop_none byPrice heq
      subst h1
      have h2 : valsAt byNonce s = [] := by
        unfold valsAt
        cases hf : findVal byNonce s with
        | none => rfl
        | some v =>
          cases hv : v with
          | nil => rfl
          | cons t ts =>
            exfalso
            have hmem := findVal_mem _ _ _ hf
            have := inv.covered (s, v) hmem (by simp [hv])
            simp at this
      simp [h2, filterS]
    · rename_i best rest heq
      obtain ⟨hperm, hlen⟩ := heapPop_spec byPrice best rest heq
      have hsp := pop_senders heq
      have hnodup_cons : (best.sender :: rest.map Tx.sender).Nodup :=
        hsp.nodup_iff.mpr inv.nodupSenders
      have hb_not_rest : best.sender ∉ rest.map Tx.sender :=
        (List.nodup_cons.mp hnodup_cons).1
      have hnodup_rest : (rest.map Tx.sender).Nodup :=
        (List.nodup_cons.mp hnodup_cons).2
      have hfilter_price : ∀ u : Nat, filterS u byPrice = filterS u (best :: rest) := by
        intro u
        refine perm_eq_of_length_le_one (filterS_perm u hperm.symm) ?_
        have : ((best :: rest).map Tx.sender).Nodup := by
          simpa using hnodup_cons
        exact filterS_length_le_one u (best :: rest) this
      have hfb_rest : filterS best.sender rest = [] :=
        filterS_nil_of_not_mem best.sender rest hb_not_rest
      split
      · rename_i t ts hfind
        have hmem := findVal_mem byNonce best.sender (t :: ts) hfind
        have ht_sender : t.sender = best.sender :=
          inv.vals _ hmem t (List.mem_cons_self t ts)
        have hsv := sumVals_update byNonce best.sender t ts hfind
        have hm2 : (heapPush rest t).length +
            sumVals (updateAssoc byNonce best.sender ts) ≤ fuel := by
          rw [heapPush_length]
          omega
        have inv2 := step_inv_tail inv heq hfind
        rw [ih _ _ (out ++ [best]) s hm2 inv2]
        have hpush_filter : ∀ u : Nat,
            filterS u (heapPush rest t) = filterS u (t :: rest) := by
          intro u
          refine perm_eq_of_length_le_one (filterS_perm u (heapPush_perm rest t)) ?_
          have : ((t :: rest).map Tx.sender).Nodup := by
            simp only [List.map_cons, List.nodup_cons]
            rw [ht_sender]
            exact ⟨hb_not_rest, hnodup_rest⟩
          exact filterS_length_le_one u (t :: rest) this
        by_cases hs : s = best.sender
        · have hfb_rest2 : filterS s rest = [] := by rw [hs]; exact hfb_rest
          rw [filterS_append, filterS_cons_pos [] hs.symm, hpush_filter,
            filterS_cons_pos rest (ht_sender.trans hs.symm), hfb_rest2,
            hfilter_price, filterS_cons_pos rest hs.symm, hfb_rest2]
          have hv1 : valsAt (updateAssoc byNonce best.sender ts) s = ts := by
            unfold valsAt
            rw [hs, findVal_update_self byNonce best.sender (t :: ts) ts hfind]
            rfl
          have hv2 : valsAt byNonce s = t :: ts := by
            unfold valsAt
            rw [hs, hfind]
            rfl
          rw [hv1, hv2]
          simp [filterS]
        · rw [filterS_append, filterS_cons_neg [] (fun hc => hs hc.symm),
            hpush_filter, filterS_cons_neg rest (by rw [ht_sender]; exact fun hc => hs hc.symm),
            hfilter_price, filterS_cons_neg rest (fun hc => hs hc.symm)]
          have hv1 : valsAt (updateAssoc byNonce best.sender ts) s = valsAt byNonce s := by
            unfold valsAt
            rw [findVal_update_ne byNonce best.sender s ts hs]
          rw [hv1]
          simp [filterS]
      · rename_i hpat
        have hno : valsAt byNonce best.sender = [] := by
          unfold valsAt
          cases hf : findVal byNonce best.sender with
          | none => rfl
          | some v =>
            cases v with
            | nil => rfl
            | cons t ts => exact absurd hf (by intro hc; exact hpat t ts hc)
        have hm2 : rest.length + sumVals byNonce ≤ fuel := by omega
        have inv2 := step_inv_notail inv heq hno
        rw [ih byNonce rest (out ++ [best]) s hm2 inv2]
        by_cases hs : s = best.sender
        · have hfb_rest2 : filterS s rest = [] := by rw [hs]; exact hfb_rest
          have hno2 : valsAt byNonce s = [] := by rw [hs]; exact hno
          rw [filterS_append, filterS_cons_pos [] hs.symm, hfilter_price,
            filterS_cons_pos rest hs.symm, hfb_rest2, hno2]
          simp [filterS]
        · rw [filterS_append, filterS_cons_neg [] (fun hc => hs hc.symm),
            hfilter_price, filterS_cons_neg rest (fun hc => hs hc.symm)]
          simp [filterS]

/-! ### Seeding-loop invariant -/

theorem not_mem_senders_of_filterS_nil (s : Nat) (l : List Tx)
    (h : filterS s l = []) : s ∉ l.map Tx.sender := by
  intro hmem
  obtain ⟨x, hx, hxs⟩ := List.mem_map.mp hmem
  have hxf : x ∈ filterS s l := by
    unfold filterS
    exact List.mem_filter.mpr ⟨hx, by simp [hxs]⟩
  rw [h] at hxf
  exact absurd hxf (List.not_mem_nil x)

theorem groupBySender_vals (txs : List Tx) :
    ∀ kv ∈ groupBySender txs, ∀ t ∈ kv.2, t.sender = kv.1 := by
  intro kv hkv t ht
  have h1 := findVal_of_mem_nodup _ kv (groupBySender_keys_nodup txs) hkv
  have h2 : valsAt (groupBySender txs) kv.1 = kv.2 := by
    unfold valsAt
    rw [h1]
    rfl
  rw [valsAt_groupBySender] at h2
  rw [← h2] at ht
  unfold filterS at ht
  have h3 := List.mem_filter.mp ht
  simpa using h3.2

theorem seedInv_base (txs : List Tx) (order : List Nat)
    (hperm : order.Perm (txSenders txs)) :
    SeedInv txs order [] (sortedGroups txs) := by
  refine ⟨sortedGroups_keys txs, ?_, ?_, by simp, ?_, ?_, ?_⟩
  · intro kv hkv t ht
    unfold sortedGroups at hkv
    obtain ⟨kv0, hkv0, hmap⟩ := List.mem_map.mp hkv
    have ht2 : t ∈ kv0.2 := by
      have : kv.2 = List.insertionSort nonceLe kv0.2 := by rw [← hmap]
      rw [this] at ht
      exact (List.perm_insertionSort nonceLe kv0.2).mem_iff.mp ht
    have := groupBySender_vals txs kv0 hkv0 t ht2
    have hfst : kv.1 = kv0.1 := by rw [← hmap]
    rw [hfst]
    exact this
  · intro s
    rw [valsAt_sortedGroups]
    rfl
  · intro a _
    rfl
  · intro s hs hne
    exfalso
    refine hne ?_
    have hs2 : s ∉ txSenders txs := fun hc => hs (hperm.mem_iff.mpr hc)
    unfold txSenders at hs2
    unfold valsAt
    rw [findVal_eq_none _ _ (by rw [sortedGroups_keys]; exact hs2)]
    rfl
  · have h1 := flattenVals_map_sort (groupBySender txs)
    have h2 := flattenVals_groupBySender txs
    unfold sortedGroups
    simpa using h1.trans h2

theorem seedInv_step (txs : List Tx) (a : Nat) (r2 : List Nat) (h : List Tx)
    (m : List (Nat × List Tx)) (hnot : a ∉ r2)
    (inv : SeedInv txs (a :: r2) h m) :
    SeedInv txs r2 (seedStep (h, m) a).1 (seedStep (h, m) a).2 := by
  unfold seedStep
  cases hf : findVal m a with
  | none =>
    simp only
    refine ⟨inv.keysEq, inv.vals, inv.perS, inv.senNodup, ?_, ?_, inv.mperm⟩
    · intro b hb
      exact inv.fresh b (List.mem_cons_of_mem a hb)
    · intro s hs hne
      by_cases hsa : s = a
      · exfalso
        refine hne ?_
        unfold valsAt
        rw [hsa, hf]
        rfl
      · exact inv.covered0 s (by simp [hsa, hs]) hne
  | some v =>
    cases v with
    | nil =>
      simp only
      refine ⟨inv.keysEq, inv.vals, inv.perS, inv.senNodup, ?_, ?_, inv.mperm⟩
      · intro b hb
        exact inv.fresh b (List.mem_cons_of_mem a hb)
      · intro s hs hne
        by_cases hsa : s = a
        · exfalso
          refine hne ?_
          unfold valsAt
          rw [hsa, hf]
          rfl
        · exact inv.covered0 s (by simp [hsa, hs]) hne
    | cons t ts =>
      simp only
      have hmem := findVal_mem m a (t :: ts) hf
      have ht_sender : t.sender = a := inv.vals _ hmem t (List.mem_cons_self t ts)
      have hfresh_a : filterS a h = [] := inv.fresh a (List.mem_cons_self a r2)
      have ha_not : a ∉ h.map Tx.sender :=
        not_mem_senders_of_filterS_nil a h hfresh_a
      refine ⟨?_, ?_, ?_, ?_, ?_, ?_, ?_⟩
      · rw [updateAssoc_keys]
        exact inv.keysEq
      · intro kv hkv x hx
        rcases mem_updateAssoc m a ts kv hkv with h2 | h2
        · subst h2
          exact inv.vals _ hmem x (List.mem_cons_of_mem t hx)
        · exact inv.vals kv h2 x hx
      · intro s
        by_cases hsa : s = a
        · have hv2 : valsAt (updateAssoc m a ts) s = ts := by
            unfold valsAt
            rw [hsa, findVal_update_self m a (t :: ts) ts hf]
            rfl
          have hv1 : valsAt m s = t :: ts := by
            unfold valsAt
            rw [hsa, hf]
            rfl
          have hfr : filterS s h = [] := by rw [hsa]; exact hfresh_a
          rw [filterS_append, filterS_cons_pos [] (ht_sender.trans hsa.symm),
            hv2, hfr]
          have := inv.perS s
          rw [hfr, hv1] at this
          simpa using this
        · have hv2 : valsAt (updateAssoc m a ts) s = valsAt m s := by
            unfold valsAt
            rw [findVal_update_ne m a s ts hsa]
          rw [filterS_append, filterS_cons_neg [] (by rw [ht_sender]; exact fun hc => hsa hc.symm),
            hv2]
          have := inv.perS s
          simpa using this
      · have : (h ++ [t]).map Tx.sender = h.map Tx.sender ++ [a] := by
          simp [ht_sender]
        rw [this]
        refine inv.senNodup.append (by simp) ?_
        intro x hx hx2
        simp only [List.mem_singleton] at hx2
        exact ha_not (hx2 ▸ hx)
      · intro b hb
        have hba : b ≠ a := fun hc => hnot (hc ▸ hb)
        rw [filterS_append, inv.fresh b (List.mem_cons_of_mem a hb),
          filterS_cons_neg [] (by rw [ht_sender]; exact fun hc => hba hc.symm)]
        rfl
      · intro s hs hne
        by_cases hsa : s = a
        · rw [hsa]
          refine List.mem_map.mpr ⟨t, ?_, ht_sender⟩
          simp
        · have hs2 : s ∉ a :: r2 := by simp [hsa, hs]
          have hv2 : valsAt (updateAssoc m a ts) s = valsAt m s := by
            unfold valsAt
            rw [findVal_update_ne m a s ts hsa]
          rw [hv2] at hne
          have := inv.covered0 s hs2 hne
          simp only [List.map_append]
          exact List.mem_append_left _ this
      · have hold := inv.mperm
        have hupd := flattenVals_update_perm m a t ts hf
        rw [← Multiset.coe_eq_coe] at hold hupd ⊢
        rw [coe_append] at hold ⊢
        rw [coe_append] at hupd
        rw [coe_append]
        rw [← hold, ← hupd]
        have e4 : ((([t] : List Tx)) : Multiset Tx) = {t} := by simp
        rw [e4]
        abel

theorem seedInv_fold : ∀ (r : List Nat) (h : List Tx)
    (m : List (Nat × List Tx)) (txs : List Tx), r.Nodup →
    SeedInv txs r h m →
    SeedInv txs [] (r.foldl seedStep (h, m)).1 (r.foldl seedStep (h, m)).2 := by
  intro r
  induction r with
  | nil => intro h m txs _ inv; exact inv
  | cons a r2 ih =>
    intro h m txs hnd inv
    simp only [List.foldl_cons]
    have hnd2 := List.nodup_cons.mp hnd
    have step := seedInv_step txs a r2 h m hnd2.1 inv
    have : seedStep (h, m) a = ((seedStep (h, m) a).1, (seedStep (h, m) a).2) := rfl
    rw [this]
    exact ih _ _ txs hnd2.2 step

theorem txSenders_nodup (txs : List Tx) : (txSenders txs).Nodup := by
  unfold txSenders
  exact groupBySender_keys_nodup txs

/-- Master theorem for SortByPriceAndNonce, valid for every resolution of
the Go map-iteration order: the output is a permutation of the input, and
restricted to any sender it is that sender partition sorted by nonce. -/
theorem sortByPriceAndNonceWith_spec (txs : List Tx) (order : List Nat)
    (hperm : order.Perm (txSenders txs)) :
    (sortByPriceAndNonceWith txs order).Perm txs ∧
    ∀ s, filterS s (sortByPriceAndNonceWith txs order) =
      List.insertionSort nonceLe (filterS s txs) := by
  have hnd_order : order.Nodup := hperm.nodup_iff.mpr (txSenders_nodup txs)
  have base := seedInv_base txs order hperm
  have fin := seedInv_fold order [] (sortedGroups txs) txs hnd_order base
  have hseed : seedHeaps (sortedGroups txs) order
      = ((order.foldl seedStep ([], sortedGroups txs)).1,
         (order.foldl seedStep ([], sortedGroups txs)).2) := rfl
  set seed := (order.foldl seedStep ([], sortedGroups txs)).1 with hseed1
  set tails := (order.foldl seedStep ([], sortedGroups txs)).2 with htails1
  have hout : sortByPriceAndNonceWith txs order
      = mergeLoopF ((heapInit seed).length + sumVals tails) tails (heapInit seed) [] := by
    unfold sortByPriceAndNonceWith mergeLoop
    simp only [hseed]
  have hikeys : (tails.map Prod.fst).Nodup := by
    rw [fin.keysEq]
    exact groupBySender_keys_nodup txs
  have hsend_init : ((heapInit seed).map Tx.sender).Perm (seed.map Tx.sender) :=
    (heapInit_perm seed).map Tx.sender
  have minv : MergeInv tails (heapInit seed) := by
    refine ⟨hikeys, hsend_init.nodup_iff.mpr fin.senNodup, ?_, fin.vals⟩
    intro kv hkv hne
    have h1 := findVal_of_mem_nodup tails kv hikeys hkv
    have h2 : valsAt tails kv.1 = kv.2 := by
      unfold valsAt
      rw [h1]
      rfl
    have h3 := fin.covered0 kv.1 (List.not_mem_nil kv.1) (by rw [h2]; exact hne)
    exact hsend_init.mem_iff.mpr h3
  constructor
  · rw [hout]
    have h1 := mergeLoopF_perm _ tails (heapInit seed) [] (Nat.le_refl _) minv
    refine h1.trans ?_
    simp only [List.nil_append]
    have h2 : (heapInit seed ++ flattenVals tails).Perm (seed ++ flattenVals tails) :=
      List.Perm.append_right (flattenVals tails) (heapInit_perm seed)
    exact h2.trans fin.mperm
  · intro s
    rw [hout]
    rw [mergeLoopF_filterS _ tails (heapInit seed) [] s (Nat.le_refl _) minv]
    have h2 : filterS s (heapInit seed) = filterS s seed :=
      perm_eq_of_length_le_one (filterS_perm s (heapInit_perm seed))
        (filterS_length_le_one s seed fin.senNodup)
    rw [h2]
    have h3 := fin.perS s
    simpa [filterS] using h3

/-! ### Supporting lemmas for the recorder, the processor and GetHash -/

theorem runOps_inv : ∀ (ops : List EnvOp) (env : VMEnv),
    env.internalTxs.map ITx.index = List.range env.internalTxs.length →
    (∀ e ∈ env.internalTxs, e.parentHash = env.hash) →
    env.internalTxs.length ≤ 501 →
    (runOps env ops).hash = env.hash ∧
    (runOps env ops).internalTxs.map ITx.index
      = List.range (runOps env ops).internalTxs.length ∧
    (∀ e ∈ (runOps env ops).internalTxs, e.parentHash = env.hash) ∧
    (runOps env ops).internalTxs.length ≤ 501 := by
  intro ops
  induction ops with
  | nil => intro env h1 h2 h3; exact ⟨rfl, h1, h2, h3⟩
  | cons op rest ih =>
    intro env h1 h2 h3
    cases op with
    | setDepth d =>
      simp only [runOps]
      exact ih { env with depth := d } h1 h2 h3
    | add itx =>
      simp only [runOps]
      unfold addInternalTransaction
      split
      · exact ih env h1 h2 h3
      · rename_i hlen
        have hlen2 : env.internalTxs.length ≤ 500 := by omega
        refine ih _ ?_ ?_ ?_
        · simp only [List.map_append, List.length_append, h1]
          simp [List.range_succ]
        · intro e he
          simp only [List.mem_append, List.mem_singleton] at he
          rcases he with he | he
          · exact h2 e he
          · rw [he]
        · simp only [List.length_append, List.length_singleton]
          omega

theorem addN_inv (h d : Nat) : ∀ n : Nat,
    (addN ⟨h, d, []⟩ n).internalTxs.length = min n 501 ∧
    (addN ⟨h, d, []⟩ n).internalTxs.map ITx.index = List.range (min n 501) := by
  intro n
  induction n with
  | zero => exact ⟨rfl, rfl⟩
  | succ n ih =>
    obtain ⟨ih1, ih2⟩ := ih
    simp only [addN]
    unfold addInternalTransaction
    split
    · rename_i hlen
      rw [ih1] at hlen
      have : min (n + 1) 501 = min n 501 := by omega
      rw [this]
      exact ⟨ih1, ih2⟩
    · rename_i hlen
      rw [ih1] at hlen
      have hmin : min (n + 1) 501 = min n 501 + 1 := by omega
      constructor
      · simp only [List.length_append, List.length_singleton, ih1, hmin]
      · simp only [List.map_append, ih2, ih1, hmin, List.range_succ]
        simp

theorem processLoop_prefix_err {S : Type}
    (apply : S → Nat → Tx → Except String (S × Nat × Receipt × List ITx × String)) :
    ∀ (pre : List Tx) (st : S) (g : Nat) (rs : List Receipt) (ls : List Nat)
    (its : List (List ITx)) (ves : List String) (st2 : S) (g2 : Nat)
    (tx : Tx) (post : List Tx) (e : String),
    runUpTo apply st g pre = some (st2, g2) →
    apply st2 g2 tx = .error e →
    processLoop apply st g (pre ++ tx :: post) rs ls its ves
      = ⟨[], [], [], [], 0, some e, false⟩ := by
  intro pre
  induction pre with
  | nil =>
    intro st g rs ls its ves st2 g2 tx post e hpre herr
    simp only [runUpTo, Option.some.injEq, Prod.mk.injEq] at hpre
    obtain ⟨h1, h2⟩ := hpre
    subst h1
    subst h2
    simp only [List.nil_append, processLoop, herr]
  | cons tx0 pre2 ih =>
    intro st g rs ls its ves st2 g2 tx post e hpre herr
    simp only [runUpTo] at hpre
    simp only [List.cons_append, processLoop]
    cases happ : apply st g tx0 with
    | error e0 => rw [happ] at hpre; simp at hpre
    | ok v =>
      rw [happ] at hpre
      obtain ⟨stx, gx, r, itxs, ve⟩ := v
      simp only at hpre
      exact ih stx gx _ _ _ _ st2 g2 tx post e hpre herr

theorem getHashLoop_spec (getBlock : Nat → Option BlockRef) : ∀ (fuel ref n : Nat),
    walkEnds getBlock fuel ref = true →
    getHashLoop getBlock fuel ref n =
      (match (chainSegment getBlock fuel ref).find? (fun b => b.number == n) with
       | some b => b.blockHash
       | none => 0) := by
  intro fuel
  induction fuel with
  | zero => intro ref n hends; exact absurd hends (by simp [walkEnds])
  | succ fuel ih =>
    intro ref n hends
    simp only [walkEnds] at hends
    simp only [getHashLoop, chainSegment]
    cases hb : getBlock ref with
    | none => simp
    | some b =>
      rw [hb] at hends
      simp only [List.find?_cons]
      by_cases hn : b.number = n
      · rw [if_pos hn]
        have : (b.number == n) = true := by simp [hn]
        rw [this]
      · rw [if_neg hn]
        have : (b.number == n) = false := by simp [hn]
        rw [this]
        exact ih b.parentHash n hends

/-! ## Claim theorems -/

/-- C1: for every input list of transactions (senders recoverable, which the
embedding makes total), after SortByPriceAndNonce the output subsequence of
transactions from any single sender equals that sender input partition
sorted in ascending nonce order (stated as: it is the stable
ascending-nonce sort of the partition, hence sorted by nonce). -/
theorem c1_per_sender_nonce_order (txs : List Tx) (s : Nat) :
    filterS s (sortByPriceAndNonce txs)
      = List.insertionSort nonceLe (filterS s txs) ∧
    List.Sorted nonceLe (filterS s (sortByPriceAndNonce txs)) := by
  have h := (sortByPriceAndNonceWith_spec txs (txSenders txs) (List.Perm.refl _)).2 s
  refine ⟨h, ?_⟩
  unfold sortByPriceAndNonce
  rw [h]
  exact List.sorted_insertionSort nonceLe (filterS s txs)

/-- C2: for every input list, including the empty one, the output of
SortByPriceAndNonce is a permutation of the input (nothing added, dropped
or duplicated) and has the same length. -/
theorem c2_output_permutation (txs : List Tx) :
    (sortByPriceAndNonce txs).Perm txs ∧
    (sortByPriceAndNonce txs).length = txs.length ∧
    sortByPriceAndNonce [] = [] := by
  have h := (sortByPriceAndNonceWith_spec txs (txSenders txs) (List.Perm.refl _)).1
  exact ⟨h, h.length_eq, rfl⟩

/-- C3 counterexample: the cap check drops entries only once more than 500
are already stored, so the 501st registration through
VMEnv.AddInternalTransaction is still accepted: 501 registrations on a
fresh context store 501 entries, not 500 as the claim states. -/
theorem c3_counterexample :
    (addN ⟨7, 0, []⟩ 501).internalTxs.length = 501 ∧ (501 : Nat) ≠ 500 := by
  constructor
  · have h := (addN_inv 7 0 501).1
    simpa using h
  · decide

/-- C3 amended: the cap lives in VMEnv.AddInternalTransaction and admits up
to 501 entries: for any number n of registrations on a fresh context the
stored count is min n 501 (so registering 502 yields exactly 501, the
excess silently dropped with no error) and the stored indices are
contiguous from 0 to the count minus one (0..500 once full); the watcher
Register* methods themselves never drop (each appends unconditionally). -/
theorem c3_cap_501 (h d : Nat) (n : Nat) :
    (addN ⟨h, d, []⟩ n).internalTxs.length = min n 501 ∧
    (addN ⟨h, d, []⟩ n).internalTxs.map ITx.index = List.range (min n 501) ∧
    (addN ⟨h, d, []⟩ 502).internalTxs.length = 501 ∧
    (∀ (w : List ITx) (a1 a2 a3 a4 a5 a6 : Nat) (data : List Nat) (dep : Nat),
      (registerCall w a1 a2 a3 a4 a5 a6 data dep).length = w.length + 1) := by
  obtain ⟨h1, h2⟩ := addN_inv h d n
  refine ⟨h1, h2, ?_, ?_⟩
  · have := (addN_inv h d 502).1
    simpa using this
  · intro w a1 a2 a3 a4 a5 a6 data dep
    simp [registerCall]

/-- C6 counterexample: RegisterCallCode and RegisterDelegateCall construct
entries tagged "call", not "callcode" and not "delegatecall". -/
theorem c6_counterexample :
    (registerCallCode [] 1 2 3 4 5 [6] 0).map ITx.note ≠ ["callcode"] ∧
    (registerDelegateCall [] 1 2 3 4 5 [6] 0).map ITx.note ≠ ["delegatecall"] ∧
    (registerCallCode [] 1 2 3 4 5 [6] 0).map ITx.note = ["call"] ∧
    (registerDelegateCall [] 1 2 3 4 5 [6] 0).map ITx.note = ["call"] := by
  refine ⟨?_, ?_, ?_, ?_⟩ <;> decide

/-- C6 amended: each Register* method appends exactly one entry whose kind
tag is: RegisterCall "call", RegisterStaticCall "staticcall",
RegisterCallCode "call", RegisterCreate "create", RegisterDelegateCall
"call", RegisterSuicide "suicide" (the callcode and delegatecall recorders
reuse the "call" tag). -/
theorem c6_register_kind_tags (w : List ITx) (a1 a2 a3 a4 a5 a6 : Nat)
    (data : List Nat) (dep : Nat) :
    (registerCall w a1 a2 a3 a4 a5 a6 data dep).map ITx.note
      = w.map ITx.note ++ ["call"] ∧
    (registerStaticCall w a1 a2 a3 a4 a5 data dep).map ITx.note
      = w.map ITx.note ++ ["staticcall"] ∧
    (registerCallCode w a1 a2 a3 a4 a5 data dep).map ITx.note
      = w.map ITx.note ++ ["call"] ∧
    (registerCreate w a1 a2 a3 a4 a5 a6 data dep).map ITx.note
      = w.map ITx.note ++ ["create"] ∧
    (registerDelegateCall w a1 a2 a3 a4 a5 data dep).map ITx.note
      = w.map ITx.note ++ ["call"] ∧
    (registerSuicide w a1 a2 a3 a4 a5 a6 dep).map ITx.note
      = w.map ITx.note ++ ["suicide"] := by
  refine ⟨?_, ?_, ?_, ?_, ?_, ?_⟩ <;>
    simp [registerCall, registerStaticCall, registerCallCode, registerCreate,
      registerDelegateCall, registerSuicide, newInternalTransaction]

/-- C9: SetParentHash is idempotent and total: one or any positive number
of applications with the same hash yield the same list, every resulting
entry carries that parent hash, and every other field of every entry is
unchanged. -/
theorem c9_setParentHash_idempotent_total (w : List ITx) (ph : Nat) :
    setParentHash (setParentHash w ph) ph = setParentHash w ph ∧
    (∀ n : Nat, setParentHashIter w ph (n + 1) = setParentHash w ph) ∧
    (∀ e ∈ setParentHash w ph, e.parentHash = ph) ∧
    (setParentHash w ph).map (fun e => (e.nonce, e.price, e.gasLimit, e.sender,
        e.recipient, e.amount, e.payload, e.depth, e.index, e.note, e.rejected))
      = w.map (fun e => (e.nonce, e.price, e.gasLimit, e.sender, e.recipient,
        e.amount, e.payload, e.depth, e.index, e.note, e.rejected)) := by
  have hidem : setParentHash (setParentHash w ph) ph = setParentHash w ph := by
    unfold setParentHash
    rw [List.map_map]
    rfl
  refine ⟨hidem, ?_, ?_, ?_⟩
  · intro n
    induction n with
    | zero => rfl
    | succ n ih =>
      have : setParentHashIter w ph (n + 1 + 1)
          = setParentHash (setParentHashIter w ph (n + 1)) ph := rfl
      rw [this, ih, hidem]
  · intro e he
    unfold setParentHash at he
    obtain ⟨x, _, hx⟩ := List.mem_map.mp he
    rw [← hx]
  · unfold setParentHash
    rw [List.map_map]
    rfl

/-- C10: AddInternalTransaction overwrites the ParentHash, Index and Depth
of the supplied entry with the context hash, the current stored count and
the context depth (first conjunct, for any context state and entry), so
after any sequence of recordings and depth changes on a fresh context the
stored indices are exactly 0..n-1 in insertion order and every entry
carries the context transaction hash as parent (remaining conjuncts). -/
theorem c10_add_overwrites_provenance (h d : Nat) (ops : List EnvOp) :
    (∀ (env : VMEnv) (itx : ITx),
      (addInternalTransaction env itx).internalTxs =
        if 500 < env.internalTxs.length then env.internalTxs
        else env.internalTxs ++ [{ itx with parentHash := env.hash,
                                            index := env.internalTxs.length,
                                            depth := env.depth }]) ∧
    (runOps ⟨h, d, []⟩ ops).internalTxs.map ITx.index
      = List.range (runOps ⟨h, d, []⟩ ops).internalTxs.length ∧
    (∀ e ∈ (runOps ⟨h, d, []⟩ ops).internalTxs, e.parentHash = h) := by
  have hinv := runOps_inv ops ⟨h, d, []⟩ rfl (by intro e he; simp at he) (by simp)
  refine ⟨?_, hinv.2.1, hinv.2.2.1⟩
  intro env itx
  unfold addInternalTransaction
  split
  · rfl
  · rfl

/-- C4: if applying any transaction of the block returns a fatal error (the
transactions before it applied successfully, reaching that transaction),
Process returns that error with nil receipts, nil logs, nil
internal-transaction reports, nil vm-error list and zero total gas used,
and the consensus Finalize hook (state commit of the block) never runs. -/
theorem c4_fatal_error_discards_block {S : Type}
    (apply : S → Nat → Tx → Except String (S × Nat × Receipt × List ITx × String))
    (st : S) (txs pre post : List Tx) (tx : Tx) (st2 : S) (g2 : Nat) (e : String)
    (hsplit : txs = pre ++ tx :: post)
    (hpre : runUpTo apply st 0 pre = some (st2, g2))
    (herr : apply st2 g2 tx = .error e) :
    process apply st txs = ⟨[], [], [], [], 0, some e, false⟩ := by
  rw [hsplit]
  unfold process
  exact processLoop_prefix_err apply pre st 0 [] [] [] [] st2 g2 tx post e hpre herr

/-- C4 witness: a one-transaction block whose transaction fails with an
invalid-signature error: Process returns that error with empty outputs. -/
theorem c4_fatal_error_discards_block_witness :
    process (S := Unit) (fun _ _ _ => .error "invalid v, r, s values") ()
        [⟨1, 0, 5, 0, none, 0, []⟩]
      = ⟨[], [], [], [], 0, some "invalid v, r, s values", false⟩ :=
  c4_fatal_error_discards_block (fun _ _ _ => .error "invalid v, r, s values")
    () [⟨1, 0, 5, 0, none, 0, []⟩] [] [] ⟨1, 0, 5, 0, none, 0, []⟩ () 0
    "invalid v, r, s values" rfl rfl rfl

/-- C5: on the successful path of ApplyTransaction the receipt embeds the
intermediate state root exactly when the declared chain configuration is
pre-Byzantium at the block number; post-fork the root is omitted, the
success/fail status bit is carried instead, and the cheaper Finalise pass
(final Bool of the result) replaces the root computation.  The regime flag
equals the declared configuration predicate applied to the block number,
whatever the execution outcome, state or transaction data. -/
theorem c5_receipt_root_regime (cfg : ChainCfg) (blockNumber : Nat)
    (st : StateView) (res : ExecResult) (msgTo : Option Nat)
    (createdAddress txHash usedGas : Nat) (bloomFn : List Nat → Nat)
    (watcher : List ITx) :
    ∃ (receipt : Receipt) (gasUsed : Nat) (itxs : List ITx) (vmerr : String)
      (cum : Nat) (finalisePass : Bool),
      applyTransactionModel cfg blockNumber st none none res msgTo
          createdAddress txHash usedGas bloomFn watcher
        = .ok (receipt, gasUsed, itxs, vmerr, cum, finalisePass) ∧
      finalisePass = cfg.isByzantium blockNumber ∧
      (cfg.isByzantium blockNumber = false →
        receipt.postState = some (st.intermediateRoot (cfg.isEIP158 blockNumber))) ∧
      (cfg.isByzantium blockNumber = true →
        receipt.postState = none ∧ receipt.status = !res.failed) := by
  refine ⟨_, _, _, _, _, _, rfl, rfl, ?_, ?_⟩
  · intro hbyz
    simp [applyTransactionModel, newReceipt, hbyz]
  · intro hbyz
    simp [applyTransactionModel, newReceipt, hbyz]

/-- C8: GetHash(n), i.e. the walk of GetHashFn starting from the parent of
the current header: provided the parent walk reaches the end of the known
chain within the given fuel, it returns the hash of the first visited
ancestor whose height is n, the zero hash when no visited ancestor has
height n, and in particular the zero hash whenever n is at least the
current block height (every visited block being a strict ancestor of the
current block, of smaller height). -/
theorem c8_getHash_ancestor (getBlock : Nat → Option BlockRef) (fuel ref n : Nat)
    (hends : walkEnds getBlock fuel ref = true) :
    (getHashFn getBlock ref fuel n =
      (match (chainSegment getBlock fuel ref).find? (fun b => b.number == n) with
       | some b => b.blockHash
       | none => 0)) ∧
    ((∀ b ∈ chainSegment getBlock fuel ref, b.number ≠ n) →
      getHashFn getBlock ref fuel n = 0) ∧
    (∀ cur : Nat, (∀ b ∈ chainSegment getBlock fuel ref, b.number < cur) →
      cur ≤ n → getHashFn getBlock ref fuel n = 0) := by
  have hmain := getHashLoop_spec getBlock fuel ref n hends
  refine ⟨hmain, ?_, ?_⟩
  · intro hnone
    unfold getHashFn
    rw [hmain]
    have : (chainSegment getBlock fuel ref).find? (fun b => b.number == n) = none := by
      rw [List.find?_eq_none]
      intro b hb
      simp [hnone b hb]
    rw [this]
  · intro cur hlt hcur
    unfold getHashFn
    rw [hmain]
    have : (chainSegment getBlock fuel ref).find? (fun b => b.number == n) = none := by
      rw [List.find?_eq_none]
      intro b hb
      have := hlt b hb
      simp only [beq_iff_eq]
      omega
    rw [this]

/-- C8 witness: on the concrete chain the walk terminates, GetHash resolves
height 1 to block 8 and returns the zero hash for the current height 3. -/
theorem c8_getHash_ancestor_witness :
    (walkEnds testChain 3 9 = true) ∧
    ((getHashFn testChain 9 3 1 =
      (match (chainSegment testChain 3 9).find? (fun b => b.number == 1) with
       | some b => b.blockHash
       | none => 0)) ∧
    ((∀ b ∈ chainSegment testChain 3 9, b.number ≠ 1) →
      getHashFn testChain 9 3 1 = 0) ∧
    (∀ cur : Nat, (∀ b ∈ chainSegment testChain 3 9, b.number < cur) →
      cur ≤ 1 → getHashFn testChain 9 3 1 = 0)) :=
  ⟨by decide, c8_getHash_ancestor testChain 3 9 1 (by decide)⟩

/-- C7 counterexample: two single-transaction senders with identical gas
price.  Both seeding orders are permutations of the sender set (both are
legitimate iteration orders of the Go byNonce map, whose iteration order is
unspecified), yet they produce different output orderings, so two runs of
SortByPriceAndNonce on the same input need not agree. -/
theorem c7_counterexample :
    List.Perm [1, 2]
      (txSenders [(⟨1, 0, 5, 0, none, 0, []⟩ : Tx), ⟨2, 0, 5, 0, none, 0, []⟩]) ∧
    List.Perm [2, 1]
      (txSenders [(⟨1, 0, 5, 0, none, 0, []⟩ : Tx), ⟨2, 0, 5, 0, none, 0, []⟩]) ∧
    sortByPriceAndNonceWith [(⟨1, 0, 5, 0, none, 0, []⟩ : Tx), ⟨2, 0, 5, 0, none, 0, []⟩] [1, 2]
      ≠ sortByPriceAndNonceWith [(⟨1, 0, 5, 0, none, 0, []⟩ : Tx), ⟨2, 0, 5, 0, none, 0, []⟩] [2, 1] := by
  refine ⟨?_, ?_, ?_⟩ <;> decide

/-- C7 amended: the ordering of equal-priced heads is deterministic only
relative to the seeding order of the sender partitions (the unspecified Go
map iteration order): for two distinct-sender transactions with identical
gas price, the output is exactly the seeding order, whichever of the two
orders the map iteration produces. -/
theorem c7_price_tie_follows_seeding (a b : Tx) (hs : a.sender ≠ b.sender)
    (hp : a.price = b.price) :
    sortByPriceAndNonceWith [a, b] [a.sender, b.sender] = [a, b] ∧
    sortByPriceAndNonceWith [a, b] [b.sender, a.sender] = [b, a] := by
  have h1 : groupBySender [a, b] = [(a.sender, [a]), (b.sender, [b])] := by
    simp [groupBySender, insertGroup, hs]
  have h2 : sortedGroups [a, b] = [(a.sender, [a]), (b.sender, [b])] := by
    unfold sortedGroups
    rw [h1]
    simp [List.insertionSort, List.orderedInsert]
  constructor
  · have h3 : seedHeaps (sortedGroups [a, b]) [a.sender, b.sender]
        = ([a, b], [(a.sender, []), (b.sender, [])]) := by
      rw [h2]
      simp [seedHeaps, seedStep, findVal, updateAssoc, hs]
    have h4 : heapInit [a, b] = [a, b] := by
      simp [heapInit, down, hLess, hp, List.range_succ, List.getD_cons_zero,
        List.getD_cons_succ]
    have h5 : mergeLoop [(a.sender, []), (b.sender, [])] [a, b] [] = [a, b] := by
      simp [mergeLoop, sumVals, mergeLoopF, heapPop, hSwap, down, hLess,
        findVal, updateAssoc, hs]
    unfold sortByPriceAndNonceWith
    simp only [h3]
    show mergeLoop [(a.sender, []), (b.sender, [])] (heapInit [a, b]) [] = [a, b]
    rw [h4]
    exact h5
  · have h3 : seedHeaps (sortedGroups [a, b]) [b.sender, a.sender]
        = ([b, a], [(a.sender, []), (b.sender, [])]) := by
      rw [h2]
      simp [seedHeaps, seedStep, findVal, updateAssoc, hs]
    have h4 : heapInit [b, a] = [b, a] := by
      simp [heapInit, down, hLess, hp, List.range_succ, List.getD_cons_zero,
        List.getD_cons_succ]
    have h5 : mergeLoop [(a.sender, []), (b.sender, [])] [b, a] [] = [b, a] := by
      simp [mergeLoop, sumVals, mergeLoopF, heapPop, hSwap, down, hLess,
        findVal, updateAssoc, hs]
    unfold sortByPriceAndNonceWith
    simp only [h3]
    show mergeLoop [(a.sender, []), (b.sender, [])] (heapInit [b, a]) [] = [b, a]
    rw [h4]
    exact h5

/-- C7 amended witness: concrete equal-priced distinct-sender heads follow
their seeding order. -/
theorem c7_price_tie_follows_seeding_witness :
    sortByPriceAndNonceWith [(⟨1, 0, 5, 0, none, 0, []⟩ : Tx), ⟨2, 0, 5, 0, none, 0, []⟩]
        [1, 2] = [⟨1, 0, 5, 0, none, 0, []⟩, ⟨2, 0, 5, 0, none, 0, []⟩] ∧
    sortByPriceAndNonceWith [(⟨1, 0, 5, 0, none, 0, []⟩ : Tx), ⟨2, 0, 5, 0, none, 0, []⟩]
        [2, 1] = [⟨2, 0, 5, 0, none, 0, []⟩, ⟨1, 0, 5, 0, none, 0, []⟩] :=
  c7_price_tie_follows_seeding ⟨1, 0, 5, 0, none, 0, []⟩ ⟨2, 0, 5, 0, none, 0, []⟩
    (by decide) (by decide)

end GoEthereum
